import Mathlib

/-!
Verification of the paristrader-terminal repository.

This file gives a shallow embedding, in Lean 4, of the parts of the
repository that the specification talks about:

* the volume-profile peak pipeline of `VP/VP _backup_12Dec.py`
  (`plot_volume_profile` and its nested helpers `find_local_maxima`,
  `dedup_within_window`, `apply_strength_threshold`, `balance_up_down`,
  `has_near_peak`, `score_and_filter_peaks_side`, and the value-area
  expansion loop);
* the orchestrator of `MarketDashboard/main_auto/main_auto.py`
  (`run_generation_pipeline`, `get_next_run_datetime`, `ACTIVE_WEEKDAYS`,
  `RUN_TIMES`);
* the z-score computations of
  `MarketDashboard/main_auto/ETF_sector_heatmap.py`
  (`compute_zs_live`, `compute_zs_5d`);
* the login gate of `app.py` (`login_system`).

Python floats are modelled as rationals; the one transcendental
computation (the exponential distance-decay weight of
`score_and_filter_peaks_side`) is abstracted as an explicit function
parameter, so every definition stays executable.  Missing values (NaN in
pandas, absent secrets, exceptions) are modelled with `Option` and
`Except`.
-/

namespace VP

/-- A histogram peak exactly as built by the nested helper
`find_local_maxima` of `plot_volume_profile` in `VP/VP _backup_12Dec.py`:
the bin index `idx`, the bin-centre `price` and the binned `volume`. -/
structure Peak where
  idx : ℕ
  price : ℚ
  volume : ℚ
deriving DecidableEq, Repr

/-- Model of the nested helper `find_local_maxima(prices_arr, vols_arr)`
of `plot_volume_profile`: it walks the interior indices `1 .. n-2` and
keeps every bin whose volume is at least the volume of both neighbours.
List reads are modelled with `getD`; the Python loop only ever reads
in-range indices. -/
def find_local_maxima (prices_arr vols_arr : List ℚ) : List Peak :=
  let n := vols_arr.length
  if n < 3 then []
  else
    ((List.range' 1 (n - 2)).filter (fun i =>
        decide (vols_arr.getD (i - 1) 0 ≤ vols_arr.getD i 0) &&
        decide (vols_arr.getD (i + 1) 0 ≤ vols_arr.getD i 0))).map
      (fun i => ⟨i, prices_arr.getD i 0, vols_arr.getD i 0⟩)

/-- Model of the Python expression `max(p['volume'] for p in peaks)` used
by `apply_strength_threshold` (and of the analogous maxima elsewhere in
the VP module); it returns `0` on the empty list, which the Python code
never reaches. -/
def max_volume : List Peak → ℚ
  | [] => 0
  | p :: rest => rest.foldl (fun m q => max m q.volume) p.volume

/-- Model of the nested helper `apply_strength_threshold(peaks, ratio)`
of `plot_volume_profile`: empty input gives an empty output, otherwise
it keeps the peaks whose volume is at least `ratio` times the maximal
peak volume. -/
def apply_strength_threshold (peaks : List Peak) (ratio : ℚ) : List Peak :=
  match peaks with
  | [] => []
  | _ :: _ =>
    peaks.filter (fun p => decide (ratio * max_volume peaks ≤ p.volume))

theorem foldl_max_vol_init_le (l : List Peak) (a : ℚ) :
    a ≤ l.foldl (fun m q => max m q.volume) a := by
  induction l generalizing a with
  | nil => exact le_refl a
  | cons q rest ih =>
    calc a ≤ max a q.volume := le_max_left _ _
    _ ≤ rest.foldl (fun m q => max m q.volume) (max a q.volume) := ih _

theorem foldl_max_vol_mem_le (l : List Peak) {q : Peak} (hq : q ∈ l) :
    ∀ a : ℚ, q.volume ≤ l.foldl (fun m p => max m p.volume) a := by
  induction l with
  | nil => cases hq
  | cons r rest ih =>
    intro a
    rcases List.mem_cons.mp hq with h | h
    · subst h
      calc q.volume ≤ max a q.volume := le_max_right _ _
      _ ≤ rest.foldl (fun m p => max m p.volume) (max a q.volume) :=
          foldl_max_vol_init_le rest _
    · exact ih h (max a r.volume)

theorem foldl_max_vol_attained (l : List Peak) (a : ℚ) :
    l.foldl (fun m q => max m q.volume) a = a ∨
      ∃ q ∈ l, l.foldl (fun m p => max m p.volume) a = q.volume := by
  induction l generalizing a with
  | nil => exact Or.inl rfl
  | cons r rest ih =>
    rcases ih (max a r.volume) with h | ⟨q, hq, hval⟩
    · rcases le_total a r.volume with hle | hle
      · refine Or.inr ⟨r, List.mem_cons_self r rest, ?_⟩
        simpa [List.foldl_cons, max_eq_right hle] using h
      · left
        simpa [List.foldl_cons, max_eq_left hle] using h
    · exact Or.inr ⟨q, List.mem_cons_of_mem _ hq, hval⟩

/-- The maximal peak volume is attained by some member of a non-empty
peak list, and bounds every member. -/
theorem max_volume_spec (peaks : List Peak) (hne : peaks ≠ []) :
    (∃ p ∈ peaks, p.volume = max_volume peaks) ∧
      ∀ p ∈ peaks, p.volume ≤ max_volume peaks := by
  match peaks with
  | [] => exact absurd rfl hne
  | p :: rest =>
    constructor
    · rcases foldl_max_vol_attained rest p.volume with h | ⟨q, hq, hval⟩
      · exact ⟨p, List.mem_cons_self p rest, by simp [max_volume, h]⟩
      · exact ⟨q, List.mem_cons_of_mem _ hq, by simp [max_volume, hval]⟩
    · intro q hq
      rcases List.mem_cons.mp hq with h | h
      · subst h; exact foldl_max_vol_init_le rest q.volume
      · exact foldl_max_vol_mem_le rest h p.volume

/-- C5: `find_local_maxima` returns exactly the interior bins: a peak is
produced for bin `i` precisely when `1 ≤ i ≤ n - 2` and `vols[i]` is at
least both neighbours; the peaks carry the price and volume of their
bin, their indices are strictly increasing, the result is empty for
fewer than three bins, and the first and last bin never appear. -/
theorem find_local_maxima_spec (prices_arr vols_arr : List ℚ) :
    (∀ p : Peak, p ∈ find_local_maxima prices_arr vols_arr ↔
      (1 ≤ p.idx ∧ p.idx + 1 < vols_arr.length ∧
        vols_arr.getD (p.idx - 1) 0 ≤ vols_arr.getD p.idx 0 ∧
        vols_arr.getD (p.idx + 1) 0 ≤ vols_arr.getD p.idx 0 ∧
        p.price = prices_arr.getD p.idx 0 ∧ p.volume = vols_arr.getD p.idx 0)) ∧
    ((find_local_maxima prices_arr vols_arr).map Peak.idx).Pairwise (· < ·) ∧
    (vols_arr.length < 3 → find_local_maxima prices_arr vols_arr = []) ∧
    (∀ p ∈ find_local_maxima prices_arr vols_arr,
      p.idx ≠ 0 ∧ p.idx ≠ vols_arr.length - 1) := by
  have hmem : ∀ p : Peak, p ∈ find_local_maxima prices_arr vols_arr ↔
      (1 ≤ p.idx ∧ p.idx + 1 < vols_arr.length ∧
        vols_arr.getD (p.idx - 1) 0 ≤ vols_arr.getD p.idx 0 ∧
        vols_arr.getD (p.idx + 1) 0 ≤ vols_arr.getD p.idx 0 ∧
        p.price = prices_arr.getD p.idx 0 ∧ p.volume = vols_arr.getD p.idx 0) := by
    intro p
    unfold find_local_maxima
    by_cases hn : vols_arr.length < 3
    · simp only [hn, if_true]
      simp only [List.not_mem_nil, false_iff]
      rintro ⟨h1, h2, -⟩
      omega
    · simp only [hn, if_false]
      constructor
      · intro hp
        rcases List.mem_map.mp hp with ⟨i, hi, hpi⟩
        rcases List.mem_filter.mp hi with ⟨hrange, hcond⟩
        rcases List.mem_range'_1.mp hrange with ⟨h1, h2⟩
        have hidx : p.idx = i := by rw [← hpi]
        subst hidx
        simp only [Bool.and_eq_true, decide_eq_true_eq] at hcond
        refine ⟨h1, by omega, hcond.1, hcond.2, ?_, ?_⟩
        · rw [← hpi]
        · rw [← hpi]
      · rintro ⟨h1, h2, hlo, hhi, hpr, hvo⟩
        refine List.mem_map.mpr ⟨p.idx, ?_, ?_⟩
        · refine List.mem_filter.mpr ⟨List.mem_range'_1.mpr ⟨h1, by omega⟩, ?_⟩
          simp only [Bool.and_eq_true, decide_eq_true_eq]
          exact ⟨hlo, hhi⟩
        · cases p with
          | mk i pr vo =>
            simp only at hpr hvo ⊢
            rw [hpr, hvo]
  refine ⟨hmem, ?_, ?_, ?_⟩
  · unfold find_local_maxima
    by_cases hn : vols_arr.length < 3
    · simp [hn]
    · simp only [hn, if_false]
      rw [List.map_map]
      have : (Peak.idx ∘ fun i =>
          (⟨i, prices_arr.getD i 0, vols_arr.getD i 0⟩ : Peak)) = id := by
        funext i; rfl
      rw [this, List.map_id]
      exact List.Pairwise.filter _ (List.pairwise_lt_range' 1 _ 1)
  · intro hn
    unfold find_local_maxima
    simp [hn]
  · intro p hp
    rcases (hmem p).mp hp with ⟨h1, h2, -⟩
    omega

/-- Witness for C5 at a concrete input: the three-bin histogram
`[3, 5, 4]` has the single interior candidate at index 1. -/
theorem find_local_maxima_spec_witness :
    (⟨1, (20 : ℚ), (5 : ℚ)⟩ : Peak) ∈ find_local_maxima [10, 20, 30] [3, 5, 4] := by
  have h := (find_local_maxima_spec [10, 20, 30] [3, 5, 4]).1
    ⟨1, (20 : ℚ), (5 : ℚ)⟩
  exact h.mpr (by norm_num)

/-- C4 counterexample: on the one-element peak list whose volume is
negative, `apply_strength_threshold` with its default ratio `0.3`
returns the empty list even though the input is non-empty, so the
claimed consequence (non-empty output, maximal peak retained) fails as
universally stated. -/
theorem apply_strength_threshold_claim_false :
    apply_strength_threshold [⟨0, 0, -1⟩] (3 / 10) = [] ∧
      ([⟨0, 0, -1⟩] : List Peak) ≠ [] := by
  constructor
  · norm_num [apply_strength_threshold, max_volume, List.filter]
  · simp

/-- C4 amended: `apply_strength_threshold` returns exactly the peaks
whose volume is at least `ratio` times the maximal peak volume, and the
empty list on empty input; whenever `ratio ≤ 1` and all volumes are
non-negative (as in every call of the VP module, where `ratio = 0.4` and
volumes are histogram sums), a maximal-volume peak is retained and the
output of a non-empty input is non-empty. -/
theorem apply_strength_threshold_spec (peaks : List Peak) (ratio : ℚ) :
    apply_strength_threshold peaks ratio =
      peaks.filter (fun p => decide (ratio * max_volume peaks ≤ p.volume)) ∧
    (ratio ≤ 1 → (∀ p ∈ peaks, 0 ≤ p.volume) → peaks ≠ [] →
      (∃ p ∈ apply_strength_threshold peaks ratio, p.volume = max_volume peaks) ∧
        apply_strength_threshold peaks ratio ≠ []) := by
  constructor
  · cases peaks with
    | nil => rfl
    | cons p rest => rfl
  · intro hratio hnn hne
    obtain ⟨⟨p, hpmem, hpmax⟩, hub⟩ := max_volume_spec peaks hne
    have hvnn : 0 ≤ max_volume peaks := hpmax ▸ hnn p hpmem
    have hthresh : ratio * max_volume peaks ≤ p.volume := by
      rw [hpmax]
      calc ratio * max_volume peaks ≤ 1 * max_volume peaks :=
        mul_le_mul_of_nonneg_right hratio hvnn
      _ = max_volume peaks := one_mul _
    have hpres : p ∈ apply_strength_threshold peaks ratio := by
      cases peaks with
      | nil => exact absurd rfl hne
      | cons q rest =>
        exact List.mem_filter.mpr ⟨hpmem, decide_eq_true hthresh⟩
    exact ⟨⟨p, hpres, hpmax⟩, List.ne_nil_of_mem hpres⟩

/-- Witness for C4 at a concrete input: with ratio `0.4` and volumes
`[10, 4, 3]` the maximal peak (volume 10) is retained and the output is
non-empty. -/
theorem apply_strength_threshold_spec_witness :
    (∃ p ∈ apply_strength_threshold
        [⟨1, 5, 10⟩, ⟨7, 6, 4⟩, ⟨13, 7, 3⟩] (2 / 5),
      p.volume = max_volume [⟨1, 5, 10⟩, ⟨7, 6, 4⟩, ⟨13, 7, 3⟩]) ∧
    apply_strength_threshold [⟨1, 5, 10⟩, ⟨7, 6, 4⟩, ⟨13, 7, 3⟩] (2 / 5) ≠ [] := by
  exact (apply_strength_threshold_spec
      [⟨1, 5, 10⟩, ⟨7, 6, 4⟩, ⟨13, 7, 3⟩] (2 / 5)).2
    (by norm_num) (by decide) (by decide)

/-- Comparison used for every Python `sorted(..., key=lambda x: x['idx'])`
in the VP module; `List.mergeSort` is stable, like Python sorting. -/
def idx_le (a b : Peak) : Bool := decide (a.idx ≤ b.idx)

/-- The Python selection key `sel_key` of `dedup_within_window`:
`(volume, -abs(price - spot), price)`, compared lexicographically. -/
def sel_key (spot_price : ℚ) (p : Peak) : ℚ × ℚ × ℚ :=
  (p.volume, -|p.price - spot_price|, p.price)

/-- Strict lexicographic comparison of Python 3-tuples of numbers. -/
def key_lt (a b : ℚ × ℚ × ℚ) : Bool :=
  decide (a.1 < b.1) ||
    (decide (a.1 = b.1) &&
      (decide (a.2.1 < b.2.1) ||
        (decide (a.2.1 = b.2.1) && decide (a.2.2 < b.2.2))))

/-- Model of Python `max(first :: rest, key=key)`: the first element
attaining the maximal key (Python `max` keeps the earliest maximum). -/
def max_by_key (key : Peak → ℚ × ℚ × ℚ) (first : Peak) (rest : List Peak) : Peak :=
  rest.foldl (fun cur x => if key_lt (key cur) (key x) then x else cur) first

/-- Model of the Python loop
`for conflict_peak in conflicts: kept.remove(conflict_peak)`:
each removal deletes the first occurrence equal to the given value. -/
def erase_list (l : List Peak) (cs : List Peak) : List Peak :=
  cs.foldl (fun k pk => k.erase pk) l

/-- Whether a kept peak conflicts with the candidate: their bin indices
differ by strictly less than the window size (Python
`abs(candidate['idx'] - peak['idx']) < window_size`). -/
def conflicts_with (window_size : ℕ) (candidate pk : Peak) : Bool :=
  decide (|(candidate.idx : ℤ) - (pk.idx : ℤ)| < (window_size : ℤ))

/-- One iteration of the `dedup_within_window` loop body of
`plot_volume_profile`: collect the kept peaks conflicting with the
candidate; if none, append the candidate, otherwise remove the
conflicts, pick the best of candidate-plus-conflicts by `sel_key`, and
append it back unless it is already present. -/
def dedup_step (spot_price : ℚ) (window_size : ℕ) (kept : List Peak)
    (candidate : Peak) : List Peak :=
  let conflicts := kept.filter (conflicts_with window_size candidate)
  if conflicts.isEmpty then kept ++ [candidate]
  else
    let best := max_by_key (sel_key spot_price) candidate conflicts
    let kept2 := erase_list kept conflicts
    if best ∈ kept2 then kept2 else kept2 ++ [best]

/-- Model of the nested helper `dedup_within_window(candidates,
spot_price, window_size)` of `plot_volume_profile`: sort the candidates
by bin index, fold the one-candidate step over them starting from an
empty kept list, and sort the kept list by bin index. -/
def dedup_within_window (candidates : List Peak) (spot_price : ℚ)
    (window_size : ℕ) : List Peak :=
  match candidates with
  | [] => []
  | _ :: _ =>
    let cs := candidates.mergeSort idx_le
    (cs.foldl (dedup_step spot_price window_size) []).mergeSort idx_le

theorem max_by_key_mem (key : Peak → ℚ × ℚ × ℚ) (rest : List Peak) :
    ∀ first : Peak, max_by_key key first rest ∈ first :: rest := by
  unfold max_by_key
  induction rest with
  | nil => intro first; exact List.mem_cons_self _ _
  | cons x t ih =>
    intro first
    simp only [List.foldl_cons]
    rcases List.mem_cons.mp
        (ih (if key_lt (key first) (key x) then x else first)) with h2 | h2
    · rw [h2]
      by_cases h : key_lt (key first) (key x)
      · simp [h]
      · simp [h]
    · exact List.mem_cons_of_mem _ (List.mem_cons_of_mem _ h2)

theorem erase_list_sublist (cs : List Peak) :
    ∀ l : List Peak, (erase_list l cs).Sublist l := by
  unfold erase_list
  induction cs with
  | nil => intro l; exact List.Sublist.refl l
  | cons c t ih =>
    intro l
    simp only [List.foldl_cons]
    exact (ih (l.erase c)).trans (List.erase_sublist c l)

theorem erase_list_cons_of_ne (cs : List Peak) (a : Peak) :
    ∀ t : List Peak, (∀ c ∈ cs, c ≠ a) →
      erase_list (a :: t) cs = a :: erase_list t cs := by
  unfold erase_list
  induction cs with
  | nil => intro t h; rfl
  | cons c cs2 ih =>
    intro t h
    simp only [List.foldl_cons]
    have hca : (a == c) = false :=
      beq_eq_false_iff_ne.mpr (fun he => (h c (List.mem_cons_self _ _)) he.symm)
    rw [List.erase_cons, hca]
    simp only [Bool.false_eq_true, if_false]
    exact ih (t.erase c) (fun x hx => h x (List.mem_cons_of_mem _ hx))

/-- Removing, one by one, every element of `l.filter p` from `l` leaves
exactly `l.filter (not ∘ p)`; this captures the conflict-removal loop of
`dedup_within_window`, whose conflict predicate depends only on the
peak value. -/
theorem erase_list_filter (l : List Peak) (p : Peak → Bool) :
    erase_list l (l.filter p) = l.filter (fun x => !(p x)) := by
  induction l with
  | nil => rfl
  | cons a t ih =>
    by_cases hpa : p a
    · have h1 : (a :: t).filter p = a :: t.filter p := by
        simp [List.filter_cons, hpa]
      rw [h1]
      have h2 : erase_list (a :: t) (a :: t.filter p) =
          erase_list t (t.filter p) := by
        unfold erase_list
        simp only [List.foldl_cons, List.erase_cons, BEq.refl, if_true]
      rw [h2, ih]
      simp [List.filter_cons, hpa]
    · have h1 : (a :: t).filter p = t.filter p := by
        simp [List.filter_cons, hpa]
      rw [h1, erase_list_cons_of_ne _ a t
        (fun c hc he => hpa (by
          have := (List.mem_filter.mp hc).2
          rw [he] at this
          exact this))]
      rw [ih]
      simp [List.filter_cons, hpa]

/-- The pairwise window-gap relation maintained by the dedup loop. -/
def gap_ok (window_size : ℕ) (a b : Peak) : Prop :=
  (window_size : ℤ) ≤ |(a.idx : ℤ) - (b.idx : ℤ)|

theorem gap_ok_symm (window_size : ℕ) : Symmetric (gap_ok window_size) := by
  intro a b h
  unfold gap_ok at h ⊢
  rwa [abs_sub_comm]

theorem dedup_step_subset (spot_price : ℚ) (window_size : ℕ)
    (kept : List Peak) (candidate : Peak) :
    ∀ p ∈ dedup_step spot_price window_size kept candidate,
      p ∈ kept ∨ p = candidate := by
  intro p hp
  unfold dedup_step at hp
  by_cases hc : (kept.filter (conflicts_with window_size candidate)).isEmpty
  · simp only [hc, if_true] at hp
    rcases List.mem_append.mp hp with h | h
    · exact Or.inl h
    · exact Or.inr (List.mem_singleton.mp h)
  · simp only [hc, Bool.false_eq_true, if_false] at hp
    set conflicts := kept.filter (conflicts_with window_size candidate) with hconf
    set best := max_by_key (sel_key spot_price) candidate conflicts with hbest
    set kept2 := erase_list kept conflicts with hk2
    have hk2sub : ∀ q ∈ kept2, q ∈ kept := by
      intro q hq
      exact (erase_list_sublist conflicts kept).mem hq
    have hbestmem : best ∈ kept ∨ best = candidate := by
      rcases List.mem_cons.mp (max_by_key_mem (sel_key spot_price) conflicts candidate)
        with h | h
      · exact Or.inr h
      · exact Or.inl (List.mem_filter.mp h).1
    by_cases hbin : best ∈ kept2
    · simp only [hbin, if_true] at hp
      exact Or.inl (hk2sub p hp)
    · simp only [hbin, if_false] at hp
      rcases List.mem_append.mp hp with h | h
      · exact Or.inl (hk2sub p h)
      · rcases List.mem_singleton.mp h with rfl
        exact hbestmem

theorem dedup_step_gap (spot_price : ℚ) (window_size : ℕ)
    (kept : List Peak) (candidate : Peak)
    (hk : kept.Pairwise (gap_ok window_size)) :
    (dedup_step spot_price window_size kept candidate).Pairwise
      (gap_ok window_size) := by
  unfold dedup_step
  by_cases hc : (kept.filter (conflicts_with window_size candidate)).isEmpty
  · simp only [hc, if_true]
    rw [List.pairwise_append]
    refine ⟨hk, List.pairwise_singleton _ _, ?_⟩
    intro a ha b hb
    rcases List.mem_singleton.mp hb with rfl
    have hnc : ¬ conflicts_with window_size b a := by
      intro hcon
      have hmem : a ∈ kept.filter (conflicts_with window_size b) :=
        List.mem_filter.mpr ⟨ha, hcon⟩
      rw [List.isEmpty_iff] at hc
      rw [hc] at hmem
      exact List.not_mem_nil a hmem
    unfold conflicts_with at hnc
    simp only [decide_eq_true_eq, not_lt] at hnc
    exact gap_ok_symm window_size hnc
  · simp only [hc, Bool.false_eq_true, if_false]
    set conflicts := kept.filter (conflicts_with window_size candidate) with hconf
    set best := max_by_key (sel_key spot_price) candidate conflicts with hbest
    have hk2eq : erase_list kept conflicts =
        kept.filter (fun x => !(conflicts_with window_size candidate x)) :=
      erase_list_filter kept _
    have hk2pw : (erase_list kept conflicts).Pairwise (gap_ok window_size) := by
      rw [hk2eq]; exact List.Pairwise.filter _ hk
    have hk2far : ∀ q ∈ erase_list kept conflicts,
        ¬ conflicts_with window_size candidate q := by
      intro q hq
      rw [hk2eq] at hq
      have := (List.mem_filter.mp hq).2
      simpa using this
    by_cases hbin : best ∈ erase_list kept conflicts
    · simp only [hbin, if_true]
      exact hk2pw
    · simp only [hbin, if_false]
      rw [List.pairwise_append]
      refine ⟨hk2pw, List.pairwise_singleton _ _, ?_⟩
      intro a ha b hb
      rcases List.mem_singleton.mp hb with rfl
      rcases List.mem_cons.mp (max_by_key_mem (sel_key spot_price) conflicts candidate)
        with hcase | hcase
      · -- best is the candidate itself
        rw [hbest, hcase]
        have hfar := hk2far a ha
        unfold conflicts_with at hfar
        simp only [decide_eq_true_eq, not_lt] at hfar
        exact gap_ok_symm window_size hfar
      · -- best is one of the conflicts, hence an element of kept
        have hbkept : best ∈ kept := (List.mem_filter.mp hcase).1
        have hbpred : conflicts_with window_size candidate best :=
          (List.mem_filter.mp hcase).2
        have hakept : a ∈ kept := (erase_list_sublist conflicts kept).mem ha
        have hane : a ≠ best := by
          intro he
          exact hk2far a ha (by rw [he]; exact hbpred)
        exact List.Pairwise.forall (gap_ok_symm window_size) hk hakept hbkept hane

theorem dedup_fold_subset (spot_price : ℚ) (window_size : ℕ)
    (cs : List Peak) : ∀ kept : List Peak,
    ∀ p ∈ cs.foldl (dedup_step spot_price window_size) kept,
      p ∈ kept ∨ p ∈ cs := by
  induction cs with
  | nil => intro kept p hp; exact Or.inl hp
  | cons c t ih =>
    intro kept p hp
    simp only [List.foldl_cons] at hp
    rcases ih (dedup_step spot_price window_size kept c) p hp with h | h
    · rcases dedup_step_subset spot_price window_size kept c p h with h2 | h2
      · exact Or.inl h2
      · exact Or.inr (h2 ▸ List.mem_cons_self _ _)
    · exact Or.inr (List.mem_cons_of_mem _ h)

theorem dedup_fold_gap (spot_price : ℚ) (window_size : ℕ) (cs : List Peak) :
    ∀ kept : List Peak, kept.Pairwise (gap_ok window_size) →
      (cs.foldl (dedup_step spot_price window_size) kept).Pairwise
        (gap_ok window_size) := by
  induction cs with
  | nil => intro kept hk; exact hk
  | cons c t ih =>
    intro kept hk
    simp only [List.foldl_cons]
    exact ih _ (dedup_step_gap spot_price window_size kept c hk)

theorem idx_le_trans : ∀ a b c : Peak, idx_le a b → idx_le b c → idx_le a c := by
  intro a b c hab hbc
  unfold idx_le at hab hbc ⊢
  simp only [decide_eq_true_eq] at hab hbc ⊢
  omega

theorem idx_le_total : ∀ a b : Peak, idx_le a b || idx_le b a := by
  intro a b
  unfold idx_le
  rcases Nat.le_total a.idx b.idx with h | h <;> simp [h]

/-- C10: the list returned by `dedup_within_window` is a subset of the
input, it is sorted by bin index, and every two distinct kept peaks have
bin indices differing by at least the window size. -/
theorem dedup_within_window_spec (candidates : List Peak) (spot_price : ℚ)
    (window_size : ℕ) :
    (∀ p ∈ dedup_within_window candidates spot_price window_size,
      p ∈ candidates) ∧
    ((dedup_within_window candidates spot_price window_size).map
      Peak.idx).Pairwise (· ≤ ·) ∧
    (dedup_within_window candidates spot_price window_size).Pairwise
      (gap_ok window_size) := by
  match candidates with
  | [] =>
    refine ⟨?_, ?_, ?_⟩ <;> simp [dedup_within_window]
  | c0 :: rest =>
    set cands := c0 :: rest with hcands
    set cs := cands.mergeSort idx_le with hcs
    set kept := cs.foldl (dedup_step spot_price window_size) [] with hkept
    have hres : dedup_within_window cands spot_price window_size =
        kept.mergeSort idx_le := rfl
    refine ⟨?_, ?_, ?_⟩
    · intro p hp
      rw [hres, List.mem_mergeSort] at hp
      rcases dedup_fold_subset spot_price window_size cs [] p hp with h | h
      · exact absurd h (List.not_mem_nil p)
      · exact List.mem_mergeSort.mp h
    · rw [hres, List.pairwise_map]
      have := List.sorted_mergeSort idx_le_trans idx_le_total kept
      refine this.imp ?_
      intro a b h
      unfold idx_le at h
      exact of_decide_eq_true h
    · rw [hres]
      have hperm : (kept.mergeSort idx_le).Perm kept := List.mergeSort_perm kept _
      rw [List.Perm.pairwise_iff (fun h => gap_ok_symm window_size h) hperm]
      exact dedup_fold_gap spot_price window_size cs []
        (List.Pairwise.nil)

/-- Witness for C10 at a concrete input: on three candidate peaks at
bins 0, 3 and 10 with window 6, the kept peaks are sorted by index. -/
theorem dedup_within_window_spec_witness :
    ((dedup_within_window [⟨0, 1, 5⟩, ⟨3, 2, 7⟩, ⟨10, 3, 4⟩] (2 : ℚ) 6).map
      Peak.idx).Pairwise (· ≤ ·) :=
  (dedup_within_window_spec [⟨0, 1, 5⟩, ⟨3, 2, 7⟩, ⟨10, 3, 4⟩] (2 : ℚ) 6).2.1

/-- The Python removal key for the upper side in `balance_up_down`:
`(volume, abs(price - spot), price)`. -/
def removal_key_up (spot_price : ℚ) (p : Peak) : ℚ × ℚ × ℚ :=
  (p.volume, |p.price - spot_price|, p.price)

/-- The Python removal key for the lower side in `balance_up_down`:
`(volume, abs(price - spot), -price)`. -/
def removal_key_dn (spot_price : ℚ) (p : Peak) : ℚ × ℚ × ℚ :=
  (p.volume, |p.price - spot_price|, -p.price)

/-- Model of Python `sorted(first :: rest, key=key)[0]`: the first
element attaining the minimal key (Python sorting is stable). -/
def min_by_key (key : Peak → ℚ × ℚ × ℚ) (first : Peak) (rest : List Peak) : Peak :=
  rest.foldl (fun cur x => if key_lt (key x) (key cur) then x else cur) first

/-- Model of the nested helper `remove_one` of `balance_up_down`: on a
non-empty side it deletes the first occurrence of the minimal-key peak;
an empty side is left unchanged. -/
def remove_one (key : Peak → ℚ × ℚ × ℚ) (l : List Peak) : List Peak :=
  match l with
  | [] => l
  | p :: rest => l.erase (min_by_key key p rest)

theorem min_by_key_mem (key : Peak → ℚ × ℚ × ℚ) (rest : List Peak) :
    ∀ first : Peak, min_by_key key first rest ∈ first :: rest := by
  unfold min_by_key
  induction rest with
  | nil => intro first; exact List.mem_cons_self _ _
  | cons x t ih =>
    intro first
    simp only [List.foldl_cons]
    rcases List.mem_cons.mp
        (ih (if key_lt (key x) (key first) then x else first)) with h2 | h2
    · rw [h2]
      by_cases h : key_lt (key x) (key first)
      · simp [h]
      · simp [h]
    · exact List.mem_cons_of_mem _ (List.mem_cons_of_mem _ h2)

theorem key_lt_irrefl (a : ℚ × ℚ × ℚ) : key_lt a a = false := by
  unfold key_lt
  simp [lt_irrefl]

theorem key_lt_trans {a b c : ℚ × ℚ × ℚ} (h1 : key_lt a b) (h2 : key_lt b c) :
    key_lt a c := by
  unfold key_lt at h1 h2 ⊢
  simp only [Bool.or_eq_true, Bool.and_eq_true, decide_eq_true_eq] at h1 h2 ⊢
  rcases h1 with h1 | ⟨e1, h1r⟩
  · rcases h2 with h2 | ⟨e2, -⟩
    · exact Or.inl (h1.trans h2)
    · exact Or.inl (e2 ▸ h1)
  · rcases h2 with h2 | ⟨e2, h2r⟩
    · exact Or.inl (e1 ▸ h2)
    · refine Or.inr ⟨e1.trans e2, ?_⟩
      rcases h1r with h1r | ⟨f1, h1s⟩
      · rcases h2r with h2r | ⟨f2, -⟩
        · exact Or.inl (h1r.trans h2r)
        · exact Or.inl (f2 ▸ h1r)
      · rcases h2r with h2r | ⟨f2, h2s⟩
        · exact Or.inl (f1 ▸ h2r)
        · exact Or.inr ⟨f1.trans f2, h1s.trans h2s⟩

theorem key_lt_total (a b : ℚ × ℚ × ℚ) :
    key_lt a b = true ∨ key_lt b a = true ∨ a = b := by
  obtain ⟨a1, a2, a3⟩ := a
  obtain ⟨b1, b2, b3⟩ := b
  unfold key_lt
  simp only [Bool.or_eq_true, Bool.and_eq_true, decide_eq_true_eq]
  rcases lt_trichotomy a1 b1 with h1 | h1 | h1
  · exact Or.inl (Or.inl h1)
  · rcases lt_trichotomy a2 b2 with h2 | h2 | h2
    · exact Or.inl (Or.inr ⟨h1, Or.inl h2⟩)
    · rcases lt_trichotomy a3 b3 with h3 | h3 | h3
      · exact Or.inl (Or.inr ⟨h1, Or.inr ⟨h2, h3⟩⟩)
      · subst h1; subst h2; subst h3
        exact Or.inr (Or.inr rfl)
      · exact Or.inr (Or.inl (Or.inr ⟨h1.symm, Or.inr ⟨h2.symm, h3⟩⟩))
    · exact Or.inr (Or.inl (Or.inr ⟨h1.symm, Or.inl h2⟩))
  · exact Or.inr (Or.inl (Or.inl h1))

theorem foldl_min_minimal (key : Peak → ℚ × ℚ × ℚ) (t : List Peak) :
    ∀ cur : Peak, ∀ q, (q = cur ∨ q ∈ t) →
      ¬ key_lt (key q)
        (key (t.foldl (fun cur x => if key_lt (key x) (key cur) then x else cur)
          cur)) := by
  induction t with
  | nil =>
    intro cur q hq
    rcases hq with rfl | h
    · simp [List.foldl_nil, key_lt_irrefl]
    · cases h
  | cons x t ih =>
    intro cur q hq
    simp only [List.foldl_cons]
    by_cases hc : key_lt (key x) (key cur)
    · rw [if_pos hc]
      rcases hq with rfl | hq2
      · intro habs
        exact ih x x (Or.inl rfl) (key_lt_trans hc habs)
      · rcases List.mem_cons.mp hq2 with heq | hq3
        · exact ih x q (Or.inl heq)
        · exact ih x q (Or.inr hq3)
    · rw [if_neg hc]
      rcases hq with rfl | hq2
      · exact ih q q (Or.inl rfl)
      · rcases List.mem_cons.mp hq2 with heq | hq3
        · intro habs
          have hcm := ih cur cur (Or.inl rfl)
          rcases key_lt_total (key cur) (key q) with h | h | h
          · exact hcm (key_lt_trans h habs)
          · exact hc (by rw [← heq]; exact h)
          · exact hcm (by rw [h]; exact habs)
        · exact ih cur q (Or.inr hq3)

theorem min_by_key_minimal (key : Peak → ℚ × ℚ × ℚ) (rest : List Peak)
    (first : Peak) : ∀ q ∈ first :: rest,
      ¬ key_lt (key q) (key (min_by_key key first rest)) := by
  intro q hq
  unfold min_by_key
  exact foldl_min_minimal key rest first q (List.mem_cons.mp hq)

/-- Every removal performed by `balance_up_down` deletes (the first
occurrence of) a peak that is minimal in the lexicographic removal-key
order among its side. -/
theorem remove_one_spec (key : Peak → ℚ × ℚ × ℚ) (l : List Peak)
    (hne : l ≠ []) :
    ∃ v ∈ l, remove_one key l = l.erase v ∧
      ∀ q ∈ l, ¬ key_lt (key q) (key v) := by
  match l with
  | [] => exact absurd rfl hne
  | p :: rest =>
    refine ⟨min_by_key key p rest, min_by_key_mem key rest p, rfl, ?_⟩
    exact min_by_key_minimal key rest p

theorem remove_one_length_lt (key : Peak → ℚ × ℚ × ℚ) (l : List Peak)
    (hne : l ≠ []) : (remove_one key l).length < l.length := by
  match l with
  | [] => exact absurd rfl hne
  | p :: rest =>
    unfold remove_one
    rw [List.length_erase_of_mem (min_by_key_mem key rest p)]
    simp

theorem remove_one_sublist (key : Peak → ℚ × ℚ × ℚ) (l : List Peak) :
    (remove_one key l).Sublist l := by
  match l with
  | [] => exact List.Sublist.refl _
  | p :: rest => exact List.erase_sublist _ _

/-- The while loop of `balance_up_down`: as long as the side counts
differ by more than `max_allowed_diff`, remove one minimal-key peak
from the larger side. -/
def balance_loop (spot_price : ℚ) (max_allowed_diff : ℕ)
    (peaks_up peaks_dn : List Peak) : List Peak × List Peak :=
  if h : max_allowed_diff <
      ((peaks_up.length : ℤ) - (peaks_dn.length : ℤ)).natAbs then
    if hgt : peaks_dn.length < peaks_up.length then
      balance_loop spot_price max_allowed_diff
        (remove_one (removal_key_up spot_price) peaks_up) peaks_dn
    else
      balance_loop spot_price max_allowed_diff peaks_up
        (remove_one (removal_key_dn spot_price) peaks_dn)
  else (peaks_up, peaks_dn)
termination_by peaks_up.length + peaks_dn.length
decreasing_by
  · have hne : peaks_up ≠ [] := by
      intro he
      rw [he] at hgt
      simp at hgt
    have hlt := remove_one_length_lt (removal_key_up spot_price) peaks_up hne
    omega
  · have hne : peaks_dn ≠ [] := by
      intro he
      subst he
      simp only [List.length_nil] at h hgt
      omega
    have hlt := remove_one_length_lt (removal_key_dn spot_price) peaks_dn hne
    omega

/-- Model of the nested helper `balance_up_down(peaks, spot_price,
max_allowed_diff, x_target, y_target)` of `plot_volume_profile`: split
the peaks into the strictly-above and strictly-below sides, optionally
shrink a side to its target count, then repeatedly remove a minimal-key
peak from the larger side until the counts differ by at most
`max_allowed_diff`.  The VP module always calls it with both targets
absent. -/
def shrink_to (key : Peak → ℚ × ℚ × ℚ) (target : ℕ) (l : List Peak) :
    List Peak :=
  if h : target < l.length then shrink_to key target (remove_one key l)
  else l
termination_by l.length
decreasing_by
  · have hne : l ≠ [] := by
      intro he
      rw [he] at h
      simp at h
    exact remove_one_length_lt key l hne

def balance_up_down (peaks : List Peak) (spot_price : ℚ)
    (max_allowed_diff : ℕ) (x_target y_target : Option ℕ) :
    List Peak × List Peak :=
  let peaks_up := peaks.filter (fun p => decide (spot_price < p.price))
  let peaks_dn := peaks.filter (fun p => decide (p.price < spot_price))
  let peaks_up2 := match x_target with
    | none => peaks_up
    | some t => shrink_to (removal_key_up spot_price) t peaks_up
  let peaks_dn2 := match y_target with
    | none => peaks_dn
    | some t => shrink_to (removal_key_dn spot_price) t peaks_dn
  balance_loop spot_price max_allowed_diff peaks_up2 peaks_dn2

theorem balance_loop_sublist (spot_price : ℚ) (d : ℕ)
    (up dn : List Peak) :
    (balance_loop spot_price d up dn).1.Sublist up ∧
      (balance_loop spot_price d up dn).2.Sublist dn := by
  induction up, dn using balance_loop.induct spot_price d with
  | case1 up dn h hgt ih =>
    rw [balance_loop]
    simp only [h, hgt, dif_pos]
    exact ⟨ih.1.trans (remove_one_sublist _ up), ih.2⟩
  | case2 up dn h hgt ih =>
    rw [balance_loop]
    rw [dif_pos h, dif_neg hgt]
    exact ⟨ih.1, ih.2.trans (remove_one_sublist _ dn)⟩
  | case3 up dn h =>
    rw [balance_loop]
    rw [dif_neg h]
    exact ⟨List.Sublist.refl _, List.Sublist.refl _⟩

theorem balance_loop_diff (spot_price : ℚ) (d : ℕ) (up dn : List Peak) :
    (((balance_loop spot_price d up dn).1.length : ℤ) -
      ((balance_loop spot_price d up dn).2.length : ℤ)).natAbs ≤ d := by
  induction up, dn using balance_loop.induct spot_price d with
  | case1 up dn h hgt ih =>
    rw [balance_loop]
    simp only [h, hgt, dif_pos]
    exact ih
  | case2 up dn h hgt ih =>
    rw [balance_loop]
    rw [dif_pos h, dif_neg hgt]
    exact ih
  | case3 up dn h =>
    rw [balance_loop]
    rw [dif_neg h]
    dsimp only
    omega

/-- C3: `balance_up_down` (as called, with no side targets) returns two
lists drawn from the input and partitioned strictly above and strictly
below the spot price; a peak priced exactly at the spot appears on
neither side; no peak is ever added; the final side counts differ by at
most `max_allowed_diff`; and every removal deletes from its side a peak
minimal in the lexicographic order `(volume, distance to spot, price
tie-break)`. -/
theorem balance_up_down_spec (peaks : List Peak) (spot_price : ℚ)
    (max_allowed_diff : ℕ) :
    (∀ p ∈ (balance_up_down peaks spot_price max_allowed_diff none none).1,
      p ∈ peaks ∧ spot_price < p.price) ∧
    (∀ p ∈ (balance_up_down peaks spot_price max_allowed_diff none none).2,
      p ∈ peaks ∧ p.price < spot_price) ∧
    (∀ p, p.price = spot_price →
      p ∉ (balance_up_down peaks spot_price max_allowed_diff none none).1 ∧
      p ∉ (balance_up_down peaks spot_price max_allowed_diff none none).2) ∧
    (((balance_up_down peaks spot_price max_allowed_diff none none).1.length : ℤ) -
      ((balance_up_down peaks spot_price max_allowed_diff none none).2.length : ℤ)).natAbs
        ≤ max_allowed_diff ∧
    (∀ (key : Peak → ℚ × ℚ × ℚ) (l : List Peak), l ≠ [] →
      ∃ v ∈ l, remove_one key l = l.erase v ∧
        ∀ q ∈ l, ¬ key_lt (key q) (key v)) := by
  have hsub := balance_loop_sublist spot_price max_allowed_diff
    (peaks.filter (fun p => decide (spot_price < p.price)))
    (peaks.filter (fun p => decide (p.price < spot_price)))
  have hup : ∀ p ∈ (balance_up_down peaks spot_price max_allowed_diff none none).1,
      p ∈ peaks ∧ spot_price < p.price := by
    intro p hp
    have := hsub.1.mem hp
    have h2 := List.mem_filter.mp this
    exact ⟨h2.1, of_decide_eq_true h2.2⟩
  have hdn : ∀ p ∈ (balance_up_down peaks spot_price max_allowed_diff none none).2,
      p ∈ peaks ∧ p.price < spot_price := by
    intro p hp
    have := hsub.2.mem hp
    have h2 := List.mem_filter.mp this
    exact ⟨h2.1, of_decide_eq_true h2.2⟩
  refine ⟨hup, hdn, ?_, ?_, ?_⟩
  · intro p hpeq
    constructor
    · intro hp
      exact absurd hpeq (ne_of_gt (hup p hp).2)
    · intro hp
      exact absurd hpeq (ne_of_lt (hdn p hp).2)
  · exact balance_loop_diff spot_price max_allowed_diff _ _
  · exact remove_one_spec

/-- Witness for C3 at a concrete input: three peaks above and none below
spot 10 with allowed difference 2 leave side counts differing by at most
2. -/
theorem balance_up_down_spec_witness :
    (((balance_up_down [⟨0, 11, 1⟩, ⟨7, 12, 2⟩, ⟨14, 13, 3⟩] 10 2 none none).1.length : ℤ) -
      ((balance_up_down [⟨0, 11, 1⟩, ⟨7, 12, 2⟩, ⟨14, 13, 3⟩] 10 2 none none).2.length : ℤ)).natAbs
        ≤ 2 :=
  (balance_up_down_spec [⟨0, 11, 1⟩, ⟨7, 12, 2⟩, ⟨14, 13, 3⟩] 10 2).2.2.2.1

/-- Model of `np.argmax(profile_vol)` as used for the POC index in
`plot_volume_profile`: the first index attaining the maximal volume. -/
def argmax_vol (vols : List ℚ) : ℕ :=
  (List.range vols.length).foldl
    (fun best i => if vols.getD best 0 < vols.getD i 0 then i else best) 0

/-- Sum of the histogram volumes over the inclusive index window
`[lo, hi]`. -/
def window_sum (vols : List ℚ) (lo hi : ℕ) : ℚ :=
  ((List.range (hi + 1 - lo)).map (fun k => vols.getD (lo + k) 0)).sum

/-- The value-area expansion loop of `plot_volume_profile`: while the
accumulated volume is below the target and a bound can still move, pull
in the larger of the two adjacent bins (ties go below), preferring the
bin below; the state is `(low_idx, high_idx, current_vol)`. -/
def va_loop (vols : List ℚ) (target : ℚ) (lo hi : ℕ) (cur : ℚ) :
    ℕ × ℕ × ℚ :=
  if h : cur < target ∧ (0 < lo ∨ hi + 1 < vols.length) then
    -- vol_below is vols[lo-1] when lo > 0 else 0; vol_above is
    -- vols[hi+1] when hi+1 < n else 0 (inlined below)
    if hb : (if hi + 1 < vols.length then vols.getD (hi + 1) 0 else 0) ≤
        (if 0 < lo then vols.getD (lo - 1) 0 else 0) ∧ 0 < lo then
      va_loop vols target (lo - 1) hi (cur + vols.getD (lo - 1) 0)
    else if ha : hi + 1 < vols.length then
      va_loop vols target lo (hi + 1) (cur + vols.getD (hi + 1) 0)
    else (lo, hi, cur)
  else (lo, hi, cur)
termination_by lo + (vols.length - hi)
decreasing_by
  · omega
  · omega

/-- Model of the value-area computation of `plot_volume_profile`: the
target is the whole `total_vol = profile_vol.sum()`, the expansion
starts at the POC bin with its own volume accumulated, and the value
area low/high are the final `(low_idx, high_idx)`. -/
def value_area_bounds (vols : List ℚ) : ℕ × ℕ :=
  let total_vol := vols.sum
  let poc_idx := argmax_vol vols
  let target := total_vol
  let r := va_loop vols target poc_idx poc_idx (vols.getD poc_idx 0)
  (r.1, r.2.1)

/-- The VAL/VAH prices read off the bin-centre price array at the final
window bounds. -/
def value_area_prices (prices vols : List ℚ) : ℚ × ℚ :=
  (prices.getD (value_area_bounds vols).1 0,
    prices.getD (value_area_bounds vols).2 0)

theorem foldl_argmax_ge (vols : List ℚ) (l : List ℕ) :
    ∀ best j, (j = best ∨ j ∈ l) →
      vols.getD j 0 ≤ vols.getD (l.foldl
        (fun best i => if vols.getD best 0 < vols.getD i 0 then i else best)
        best) 0 := by
  induction l with
  | nil =>
    intro best j hj
    rcases hj with rfl | h
    · exact le_refl _
    · cases h
  | cons i t ih =>
    intro best j hj
    simp only [List.foldl_cons]
    by_cases hc : vols.getD best 0 < vols.getD i 0
    · rw [if_pos hc]
      rcases hj with rfl | hj2
      · exact le_trans (le_of_lt hc) (ih i i (Or.inl rfl))
      · rcases List.mem_cons.mp hj2 with heq | hj3
        · exact heq ▸ ih i i (Or.inl rfl)
        · exact ih i j (Or.inr hj3)
    · rw [if_neg hc]
      rcases hj with rfl | hj2
      · exact ih j j (Or.inl rfl)
      · rcases List.mem_cons.mp hj2 with heq | hj3
        · exact le_trans (heq ▸ not_lt.mp hc) (ih best best (Or.inl rfl))
        · exact ih best j (Or.inr hj3)

theorem foldl_argmax_mem (vols : List ℚ) (l : List ℕ) :
    ∀ best, l.foldl
        (fun best i => if vols.getD best 0 < vols.getD i 0 then i else best)
        best = best ∨
      l.foldl
        (fun best i => if vols.getD best 0 < vols.getD i 0 then i else best)
        best ∈ l := by
  induction l with
  | nil => intro best; exact Or.inl rfl
  | cons i t ih =>
    intro best
    simp only [List.foldl_cons]
    by_cases hc : vols.getD best 0 < vols.getD i 0
    · rw [if_pos hc]
      rcases ih i with h | h
      · exact Or.inr (by rw [h]; exact List.mem_cons_self _ _)
      · exact Or.inr (List.mem_cons_of_mem _ h)
    · rw [if_neg hc]
      rcases ih best with h | h
      · exact Or.inl h
      · exact Or.inr (List.mem_cons_of_mem _ h)

theorem argmax_vol_lt_length (vols : List ℚ) (hne : vols ≠ []) :
    argmax_vol vols < vols.length := by
  unfold argmax_vol
  rcases foldl_argmax_mem vols (List.range vols.length) 0 with h | h
  · rw [h]
    cases vols with
    | nil => exact absurd rfl hne
    | cons v t => simp
  · exact List.mem_range.mp h

theorem argmax_vol_is_max (vols : List ℚ) :
    ∀ i < vols.length, vols.getD i 0 ≤ vols.getD (argmax_vol vols) 0 := by
  intro i hi
  unfold argmax_vol
  exact foldl_argmax_ge vols (List.range vols.length) 0 i
    (Or.inr (List.mem_range.mpr hi))

theorem window_sum_single (vols : List ℚ) (i : ℕ) :
    window_sum vols i i = vols.getD i 0 := by
  unfold window_sum
  have h1 : i + 1 - i = 1 := by omega
  have h2 : List.range 1 = [0] := rfl
  rw [h1, h2]
  simp

theorem window_sum_extend_lo (vols : List ℚ) (lo hi : ℕ) (h0 : 0 < lo)
    (hle : lo ≤ hi + 1) :
    window_sum vols (lo - 1) hi = vols.getD (lo - 1) 0 + window_sum vols lo hi := by
  unfold window_sum
  have hm : hi + 1 - (lo - 1) = (hi + 1 - lo) + 1 := by omega
  rw [hm, List.range_succ_eq_map]
  simp only [List.map_cons, List.map_map, List.sum_cons, Nat.add_zero]
  congr 1
  refine congrArg List.sum (List.map_congr_left ?_)
  intro k hk
  simp only [Function.comp_apply]
  congr 1
  omega

theorem window_sum_extend_hi (vols : List ℚ) (lo hi : ℕ) (hle : lo ≤ hi + 1) :
    window_sum vols lo (hi + 1) = window_sum vols lo hi + vols.getD (hi + 1) 0 := by
  unfold window_sum
  have hm : hi + 1 + 1 - lo = (hi + 1 - lo) + 1 := by omega
  rw [hm, List.range_succ]
  simp only [List.map_append, List.map_cons, List.map_nil, List.sum_append,
    List.sum_cons, List.sum_nil, add_zero]
  congr 2
  omega

theorem va_loop_invariant (vols : List ℚ) (target : ℚ)
    (hnn : ∀ v ∈ vols, 0 ≤ v) :
    ∀ lo hi cur, lo ≤ hi → hi < vols.length → cur = window_sum vols lo hi →
      (va_loop vols target lo hi cur).1 ≤ lo ∧
      hi ≤ (va_loop vols target lo hi cur).2.1 ∧
      (va_loop vols target lo hi cur).1 ≤ (va_loop vols target lo hi cur).2.1 ∧
      (va_loop vols target lo hi cur).2.1 < vols.length ∧
      (va_loop vols target lo hi cur).2.2 =
        window_sum vols (va_loop vols target lo hi cur).1
          (va_loop vols target lo hi cur).2.1 ∧
      (target ≤ (va_loop vols target lo hi cur).2.2 ∨
        ((va_loop vols target lo hi cur).1 = 0 ∧
          (va_loop vols target lo hi cur).2.1 + 1 = vols.length)) := by
  intro lo hi cur
  induction lo, hi, cur using va_loop.induct vols target with
  | case1 lo hi cur h hb ih =>
    intro hlohi hhi hcur
    simp only [dite_eq_ite] at hb
    rw [va_loop]
    rw [dif_pos h, dif_pos hb]
    have hrec := ih (by omega) hhi
      (by rw [hcur, window_sum_extend_lo vols lo hi hb.2 (by omega)]; ring)
    exact ⟨by omega, hrec.2.1, hrec.2.2.1, hrec.2.2.2.1, hrec.2.2.2.2.1,
      hrec.2.2.2.2.2⟩
  | case2 lo hi cur h hb ha ih =>
    intro hlohi hhi hcur
    simp only [dite_eq_ite] at hb
    rw [va_loop]
    rw [dif_pos h, dif_neg hb, dif_pos ha]
    have hrec := ih (by omega) ha
      (by rw [hcur, window_sum_extend_hi vols lo hi (by omega)])
    exact ⟨hrec.1, by omega, hrec.2.2.1, hrec.2.2.2.1, hrec.2.2.2.2.1,
      hrec.2.2.2.2.2⟩
  | case3 lo hi cur h hb ha =>
    intro hlohi hhi hcur
    simp only [dite_eq_ite] at hb
    exfalso
    -- the break branch is unreachable for non-negative volumes
    rcases h with ⟨-, hmove⟩
    rcases hmove with hlo | hhi2
    · have hbelow : (0 : ℚ) ≤ vols.getD (lo - 1) 0 := by
        by_cases hin : lo - 1 < vols.length
        · refine hnn _ ?_
          rw [List.getD_eq_getElem _ _ hin]
          exact List.getElem_mem _
        · rw [List.getD_eq_default _ _ (by omega)]
      apply hb
      rw [if_neg ha, if_pos hlo]
      exact ⟨hbelow, hlo⟩
    · exact ha hhi2
  | case4 lo hi cur h =>
    intro hlohi hhi hcur
    rw [va_loop]
    rw [dif_neg h]
    push_neg at h
    refine ⟨le_refl _, le_refl _, hlohi, hhi, hcur, ?_⟩
    by_cases hcl : cur < target
    · have h2 := h hcl
      push_neg at h2
      exact Or.inr ⟨by dsimp only; omega, by dsimp only; omega⟩
    · exact Or.inl (not_lt.mp hcl)

/-- C2 counterexample: the expansion loop's target is the WHOLE total
volume, not a fraction strictly less than it.  On the histogram
`[1, 1, 1]` the window `[0, 1]` already holds two thirds of the volume,
yet the loop expands to the full range `(0, 2)`, whose accumulated
volume is the entire sum. -/
theorem value_area_claim_false :
    value_area_bounds [1, 1, 1] = (0, 2) ∧
      (2 / 3) * ([1, 1, 1] : List ℚ).sum ≤ window_sum [1, 1, 1] 0 1 ∧
      window_sum [1, 1, 1] 0 2 = ([1, 1, 1] : List ℚ).sum := by
  have hargmax : argmax_vol [1, 1, 1] = 0 := by
    norm_num [argmax_vol, List.range_succ, List.foldl]
  refine ⟨?_, ?_, ?_⟩
  · simp only [value_area_bounds, hargmax]
    rw [va_loop]
    norm_num
    rw [va_loop]
    norm_num
    rw [va_loop]
    norm_num
  · norm_num [window_sum, List.range_succ]
  · norm_num [window_sum, List.range_succ]

/-- C2 amended: the value-area expansion targets the histogram's entire
total volume: starting from the POC bin (a maximal-volume bin), the loop
grows the inclusive window `[VAL, VAH]` until the accumulated window
volume reaches the total volume or the window covers the whole
histogram; VAL and VAH can nevertheless lie strictly inside the price
range when edge bins carry zero volume, as for `[0, 1, 0]`. -/
theorem value_area_spec (vols : List ℚ) (hnn : ∀ v ∈ vols, 0 ≤ v)
    (hne : vols ≠ []) :
    (value_area_bounds vols).1 ≤ argmax_vol vols ∧
    argmax_vol vols ≤ (value_area_bounds vols).2 ∧
    (value_area_bounds vols).2 < vols.length ∧
    (∀ i < vols.length, vols.getD i 0 ≤ vols.getD (argmax_vol vols) 0) ∧
    (vols.sum ≤ window_sum vols (value_area_bounds vols).1
        (value_area_bounds vols).2 ∨
      ((value_area_bounds vols).1 = 0 ∧
        (value_area_bounds vols).2 + 1 = vols.length)) ∧
    value_area_bounds [0, 1, 0] = (1, 1) := by
  have hpoc := argmax_vol_lt_length vols hne
  have hinv := va_loop_invariant vols vols.sum hnn (argmax_vol vols)
    (argmax_vol vols) (vols.getD (argmax_vol vols) 0) (le_refl _) hpoc
    (window_sum_single vols (argmax_vol vols)).symm
  have hb : value_area_bounds vols =
      ((va_loop vols vols.sum (argmax_vol vols) (argmax_vol vols)
        (vols.getD (argmax_vol vols) 0)).1,
       (va_loop vols vols.sum (argmax_vol vols) (argmax_vol vols)
        (vols.getD (argmax_vol vols) 0)).2.1) := rfl
  refine ⟨by rw [hb]; exact hinv.1, by rw [hb]; exact hinv.2.1,
    by rw [hb]; exact hinv.2.2.2.1, argmax_vol_is_max vols, ?_, ?_⟩
  · rw [hb]
    rcases hinv.2.2.2.2.2 with hc | hc
    · exact Or.inl (by rw [← hinv.2.2.2.2.1]; exact hc)
    · exact Or.inr hc
  · have hargmax : argmax_vol [0, 1, 0] = 1 := by
      norm_num [argmax_vol, List.range_succ, List.foldl]
    simp only [value_area_bounds, hargmax]
    rw [va_loop]
    norm_num

/-- Witness for C2 (amended) at a concrete input: on `[2, 5, 1]` the
value-area high index stays inside the histogram. -/
theorem value_area_spec_witness :
    (value_area_bounds [2, 5, 1]).2 < ([2, 5, 1] : List ℚ).length :=
  (value_area_spec [2, 5, 1] (by norm_num) (by simp)).2.2.1

/-- Model of `np.argmin(np.abs(profile_price - current_price))` as used
for the spot bin index and the closest-bin fallback: the first index
minimising the distance to the spot price. -/
def argmin_abs (prices : List ℚ) (spot : ℚ) : ℕ :=
  (List.range prices.length).foldl
    (fun best i =>
      if |prices.getD i 0 - spot| < |prices.getD best 0 - spot| then i else best) 0

/-- Model of the nested helper `has_near_peak(peaks_side, 'up',
spot_idx, near_bins)`: some peak lies at most `near_bins` bins strictly
above the spot bin. -/
def has_near_peak_up (peaks_side : List Peak) (spot_idx near_bins : ℕ) : Bool :=
  peaks_side.any (fun p =>
    decide (0 < (p.idx : ℤ) - (spot_idx : ℤ) ∧
      (p.idx : ℤ) - (spot_idx : ℤ) ≤ (near_bins : ℤ)))

/-- Model of the nested helper `has_near_peak(peaks_side, 'dn',
spot_idx, near_bins)`: some peak lies at most `near_bins` bins strictly
below the spot bin. -/
def has_near_peak_dn (peaks_side : List Peak) (spot_idx near_bins : ℕ) : Bool :=
  peaks_side.any (fun p =>
    decide (0 < (spot_idx : ℤ) - (p.idx : ℤ) ∧
      (spot_idx : ℤ) - (p.idx : ℤ) ≤ (near_bins : ℤ)))

/-- The per-peak score of `score_and_filter_peaks_side` with the
exponent `alpha = 1.0` of every call in the VP module: the normalised
volume times the distance-decay weight.  The weight
`exp(-lambda * d_norm ** gamma)` is computed by the Python code with
floating-point `math.exp`; it is abstracted here as the function `w`
of the integer bin distance, which is all the claims need. -/
def score_of (w : ℕ → ℚ) (vmax : ℚ) (spot_idx : ℕ) (p : Peak) : ℚ :=
  (p.volume / vmax) * w (((p.idx : ℤ) - (spot_idx : ℤ)).natAbs)

/-- The maximal score of a peak list (`s_max` in the Python code). -/
def max_score (w : ℕ → ℚ) (vmax : ℚ) (spot_idx : ℕ) : List Peak → ℚ
  | [] => 0
  | p :: rest => rest.foldl (fun m q => max m (score_of w vmax spot_idx q))
      (score_of w vmax spot_idx p)

/-- Model of the nested helper `score_and_filter_peaks_side` of
`plot_volume_profile`: empty side unchanged; a side with no positive
volume unchanged; otherwise score every peak and either keep the
`top_k` highest-scoring peaks (Python sorts stably by descending score)
or, with no positive `top_k`, keep the peaks scoring at least
`score_ratio` times the maximal score. -/
def score_and_filter_peaks_side (w : ℕ → ℚ) (peaks_side : List Peak)
    (spot_idx : ℕ) (score_ratio : ℚ) (top_k : Option ℕ) : List Peak :=
  match peaks_side with
  | [] => []
  | _ :: _ =>
    let vmax := max_volume peaks_side
    if vmax ≤ 0 then peaks_side
    else
      match top_k with
      | some k =>
        if 0 < k then
          (peaks_side.mergeSort (fun a b =>
            decide (score_of w vmax spot_idx b ≤ score_of w vmax spot_idx a))).take k
        else
          peaks_side.filter (fun p =>
            decide (score_ratio * max_score w vmax spot_idx peaks_side ≤
              score_of w vmax spot_idx p))
      | none =>
        peaks_side.filter (fun p =>
          decide (score_ratio * max_score w vmax spot_idx peaks_side ≤
            score_of w vmax spot_idx p))

/-- The rescoring branch of `plot_volume_profile` (taken when a side
has no peak within 40 bins of the spot): re-partition the
strength-filtered peaks around the spot, apply the top-k score filter
to the side with at least as many peaks (k is the smaller count plus
10), and run the second balance. -/
def rescore_stage (w : ℕ → ℚ) (filtered_peaks : List Peak)
    (current_price : ℚ) (spot_idx : ℕ) : List Peak × List Peak :=
  let raw_up := filtered_peaks.filter (fun p => decide (current_price < p.price))
  let raw_dn := filtered_peaks.filter (fun p => decide (p.price < current_price))
  let target_big := min raw_up.length raw_dn.length + 10
  let rescored :=
    if raw_dn.length ≤ raw_up.length then
      if 0 < raw_up.length then
        (score_and_filter_peaks_side w raw_up spot_idx 0
          (some (min target_big raw_up.length)), raw_dn)
      else (raw_up, raw_dn)
    else
      if 0 < raw_dn.length then
        (raw_up, score_and_filter_peaks_side w raw_dn spot_idx 0
          (some (min target_big raw_dn.length)))
      else (raw_up, raw_dn)
  balance_up_down (rescored.1 ++ rescored.2) current_price 10 none none

/-- Model of the peak-pipeline portion of `plot_volume_profile`: local
maxima, window-6 dedup, strength threshold 0.4, the two fallbacks (an
empty threshold result reverts to the deduplicated peaks; if that is
empty too and the histogram has at least 3 bins, the single bin closest
to the spot is used), the first balance, and the rescoring branch
exactly when a side has no peak within 40 bins of the spot index.
Returns the final `(peaks_up, peaks_dn)`. -/
def plot_volume_profile_peaks (w : ℕ → ℚ) (profile_price profile_vol : List ℚ)
    (current_price : ℚ) : List Peak × List Peak :=
  let candidate_peaks := find_local_maxima profile_price profile_vol
  let deduped_peaks := dedup_within_window candidate_peaks current_price 6
  let filtered0 := apply_strength_threshold deduped_peaks (2 / 5)
  let filtered1 := if filtered0.isEmpty then deduped_peaks else filtered0
  let filtered_peaks :=
    if filtered1.isEmpty && decide (3 ≤ profile_vol.length) then
      [⟨argmin_abs profile_price current_price,
        profile_price.getD (argmin_abs profile_price current_price) 0,
        profile_vol.getD (argmin_abs profile_price current_price) 0⟩]
    else filtered1
  let initial := balance_up_down filtered_peaks current_price 10 none none
  let spot_idx := argmin_abs profile_price current_price
  if has_near_peak_up initial.1 spot_idx 40 &&
      has_near_peak_dn initial.2 spot_idx 40 then
    initial
  else
    rescore_stage w filtered_peaks current_price spot_idx

/-- The pipeline as claim C1 words it: local maxima, window-6 dedup,
strength threshold, first balance, and the rescoring stage if and only
if a side lacks a near peak — with NO fallback between the threshold
and the first balance.  Written from the claim text, for comparison
with `plot_volume_profile_peaks`. -/
def peaks_per_claim (w : ℕ → ℚ) (profile_price profile_vol : List ℚ)
    (current_price : ℚ) : List Peak × List Peak :=
  let filtered_peaks := apply_strength_threshold
    (dedup_within_window (find_local_maxima profile_price profile_vol)
      current_price 6) (2 / 5)
  let initial := balance_up_down filtered_peaks current_price 10 none none
  let spot_idx := argmin_abs profile_price current_price
  if has_near_peak_up initial.1 spot_idx 40 &&
      has_near_peak_dn initial.2 spot_idx 40 then
    initial
  else
    rescore_stage w filtered_peaks current_price spot_idx

theorem eval_maxima_321 : find_local_maxima [1, 2, 3] [3, 2, 1] = [] := by
  norm_num [find_local_maxima, List.range', List.filter]

theorem eval_argmin_321 : argmin_abs [1, 2, 3] (5 / 2) = 1 := by
  norm_num [argmin_abs, List.range_succ, List.foldl, abs]

theorem eval_balance_single :
    balance_up_down [⟨1, 2, 2⟩] (5 / 2) 10 none none = ([], [⟨1, 2, 2⟩]) := by
  unfold balance_up_down
  norm_num [List.filter]
  rw [balance_loop]
  norm_num

theorem eval_balance_empty :
    balance_up_down [] (5 / 2) 10 none none = ([], []) := by
  unfold balance_up_down
  norm_num [List.filter]
  rw [balance_loop]
  norm_num

theorem eval_score_single :
    score_and_filter_peaks_side (fun _ => 1) [⟨1, 2, 2⟩] 1 0 (some 1) =
      [⟨1, 2, 2⟩] := by
  unfold score_and_filter_peaks_side
  norm_num [max_volume, List.mergeSort]

theorem eval_rescore_single :
    rescore_stage (fun _ => 1) [⟨1, 2, 2⟩] (5 / 2) 1 = ([], [⟨1, 2, 2⟩]) := by
  unfold rescore_stage
  norm_num [List.filter, eval_score_single]
  exact eval_balance_single

theorem eval_rescore_empty :
    rescore_stage (fun _ => 1) [] (5 / 2) 1 = ([], []) := by
  unfold rescore_stage
  norm_num [List.filter]
  exact eval_balance_empty

/-- C1 counterexample: on the strictly decreasing three-bin histogram
`[3, 2, 1]` with spot `2.5`, the strength-threshold stage leaves no
peak, `plot_volume_profile` falls back to the single bin closest to the
spot (a stage the claim omits) and ends with that peak, whereas the
claimed four-stage composition followed by the rescoring rule ends with
no peaks at all. -/
theorem plot_volume_profile_claim_false :
    plot_volume_profile_peaks (fun _ => 1) [1, 2, 3] [3, 2, 1] (5 / 2) =
      ([], [⟨1, 2, 2⟩]) ∧
    peaks_per_claim (fun _ => 1) [1, 2, 3] [3, 2, 1] (5 / 2) = ([], []) ∧
    plot_volume_profile_peaks (fun _ => 1) [1, 2, 3] [3, 2, 1] (5 / 2) ≠
      peaks_per_claim (fun _ => 1) [1, 2, 3] [3, 2, 1] (5 / 2) := by
  have h8 : plot_volume_profile_peaks (fun _ => 1) [1, 2, 3] [3, 2, 1] (5 / 2) =
      ([], [⟨1, 2, 2⟩]) := by
    unfold plot_volume_profile_peaks
    rw [eval_maxima_321]
    norm_num [dedup_within_window, apply_strength_threshold, eval_argmin_321,
      eval_balance_single, has_near_peak_up]
    exact eval_rescore_single
  have h9 : peaks_per_claim (fun _ => 1) [1, 2, 3] [3, 2, 1] (5 / 2) =
      ([], []) := by
    unfold peaks_per_claim
    rw [eval_maxima_321]
    norm_num [dedup_within_window, apply_strength_threshold, eval_argmin_321,
      eval_balance_empty, has_near_peak_up]
    exact eval_rescore_empty
  refine ⟨h8, h9, ?_⟩
  rw [h8, h9]
  simp

/-- C1 amended: for every histogram the final peak pair of
`plot_volume_profile` is produced by, in this order, local-maxima
detection, index-window-6 deduplication, the strength-threshold filter
0.4, the two fallbacks the claim omits (threshold emptied → reuse the
deduplicated peaks; still empty with at least 3 bins → the single bin
closest to the spot), and the first up/down balance; the
distance-decayed rescoring stage followed by a second balance is
applied if and only if, after the first balance, at least one side has
no peak within 40 bins of the spot bin index. -/
theorem plot_volume_profile_peaks_spec (w : ℕ → ℚ)
    (profile_price profile_vol : List ℚ) (current_price : ℚ)
    (fp : List Peak) (si : ℕ) (init : List Peak × List Peak)
    (hfp : fp =
      (let deduped := dedup_within_window
        (find_local_maxima profile_price profile_vol) current_price 6
       let filtered0 := apply_strength_threshold deduped (2 / 5)
       let filtered1 := if filtered0.isEmpty then deduped else filtered0
       if filtered1.isEmpty && decide (3 ≤ profile_vol.length) then
         [⟨argmin_abs profile_price current_price,
           profile_price.getD (argmin_abs profile_price current_price) 0,
           profile_vol.getD (argmin_abs profile_price current_price) 0⟩]
       else filtered1))
    (hsi : si = argmin_abs profile_price current_price)
    (hinit : init = balance_up_down fp current_price 10 none none) :
    plot_volume_profile_peaks w profile_price profile_vol current_price =
      if has_near_peak_up init.1 si 40 && has_near_peak_dn init.2 si 40 then
        init
      else rescore_stage w fp current_price si := by
  subst hfp
  subst hinit
  subst hsi
  rfl

/-- Witness for C1 (amended) at a concrete input: on `[3, 2, 1]` with
spot `2.5` the fallback peak survives and the rescoring branch is the
one taken. -/
theorem plot_volume_profile_peaks_spec_witness :
    plot_volume_profile_peaks (fun _ => 1) [1, 2, 3] [3, 2, 1] (5 / 2) =
      if has_near_peak_up ([] : List Peak) 1 40 &&
          has_near_peak_dn [⟨1, 2, 2⟩] 1 40 then
        (([] : List Peak), [(⟨1, 2, 2⟩ : Peak)])
      else rescore_stage (fun _ => 1) [⟨1, 2, 2⟩] (5 / 2) 1 := by
  have happ := plot_volume_profile_peaks_spec (fun _ => 1) [1, 2, 3] [3, 2, 1]
    (5 / 2) [⟨1, 2, 2⟩] 1 ([], [⟨1, 2, 2⟩])
    (by
      rw [eval_maxima_321]
      norm_num [dedup_within_window, apply_strength_threshold, eval_argmin_321])
    eval_argmin_321.symm eval_balance_single.symm
  exact happ

end VP

namespace MainAuto

/-!
Model of `MarketDashboard/main_auto/main_auto.py`.  Datetimes are
modelled as whole minutes since an epoch falling on a Monday 00:00 in
the orchestrator's timezone (Asia/Hong_Kong, which has no DST), so the
ISO weekday is recovered arithmetically.
-/

/-- The calendar day index of a minute timestamp. -/
def day_of (t : ℕ) : ℕ := t / 1440

/-- Python `date.isoweekday()`: Monday = 1 … Sunday = 7; the epoch day
is a Monday. -/
def isoweekday_of_day (d : ℕ) : ℕ := d % 7 + 1

/-- Model of `ACTIVE_WEEKDAYS = {1, 2, 3, 4, 5, 6}` (Monday through
Saturday). -/
def ACTIVE_WEEKDAYS : List ℕ := [1, 2, 3, 4, 5, 6]

/-- Model of `RUN_TIMES` (09:00, 22:30, 23:30 local), as minutes of the
day. -/
def RUN_TIMES : List ℕ := [540, 1350, 1410]

/-- A scheduled run datetime: one of the configured run times on an
active weekday. -/
def is_run_dt (t : ℕ) : Prop :=
  isoweekday_of_day (day_of t) ∈ ACTIVE_WEEKDAYS ∧ t % 1440 ∈ RUN_TIMES

instance (t : ℕ) : Decidable (is_run_dt t) := by
  unfold is_run_dt
  infer_instance

/-- Model of `get_next_run_datetime(current)`: scan day offsets 0..7,
skip inactive weekdays, and return the first configured run datetime
that is not before `current`; `none` models the `RuntimeError` raised
when nothing is found within a week. -/
def get_next_run_datetime (current : ℕ) : Option ℕ :=
  (List.range 8).findSome? (fun day_delta =>
    let candidate_date := day_of (current + day_delta * 1440)
    if isoweekday_of_day candidate_date ∈ ACTIVE_WEEKDAYS then
      RUN_TIMES.findSome? (fun run_time =>
        let candidate_dt := candidate_date * 1440 + run_time
        if current ≤ candidate_dt then some candidate_dt else none)
    else none)

/-- The dashboard HTML document, as assembled by
`build_dashboard_html` from the produced assets. -/
structure Dashboard where
  etf_html : String
  hsi_png : String
  nq_png : String
  spx_vix_png : String
  cbbc_html : Option String
  otm_html : Option String
  true_range_data : List String
  trading_time_data : List String
deriving DecidableEq, Repr

/-- Model of `build_dashboard_html`: assemble one dashboard document
from the section assets. -/
def build_dashboard_html (etf hsi nq spx : String) (cbbc otm : Option String)
    (true_range_data trading_time_data : List String) : Dashboard :=
  ⟨etf, hsi, nq, spx, cbbc, otm, true_range_data, trading_time_data⟩

/-- The dictionary returned by `run_generation_pipeline`. -/
structure PipelineResult where
  etf_html : String
  hsi_png : String
  nq_png : String
  spx_vix_png : String
  dashboard_html : Dashboard
deriving DecidableEq, Repr

/-- The per-item loops for the True-Range and Trading-Time sections:
each item is generated inside its own try/except, failures and empty
results are skipped. -/
def collect_sections (steps : List (Except String (Option String))) :
    List String :=
  steps.foldl (fun acc s =>
    match s with
    | .ok (some r) => acc ++ [r]
    | .ok none => acc
    | .error _ => acc) []

/-- Model of `run_generation_pipeline`: every report step is given as
an `Except` value (`ok` carries the produced artifact path, `error` the
exception the Python call would raise).  The ETF-heatmap, HSI-breadth,
NQ-breadth and SPX/VIX steps are called OUTSIDE any try/except, so
their exceptions propagate and abort the pipeline (monadic bind); the
CBBC step and every True-Range / Trading-Time item are wrapped in
try/except, logged, and skipped on failure.  The OtmPremium block is
commented out in the source, so `otm` is always absent. -/
def run_generation_pipeline (etf_step hsi_step nq_step spx_step : Except String String)
    (cbbc_step : Except String (Option String))
    (true_range_steps trading_time_steps : List (Except String (Option String))) :
    Except String PipelineResult := do
  let etf ← etf_step
  let hsi ← hsi_step
  let nq ← nq_step
  let spx ← spx_step
  let cbbc : Option String :=
    match cbbc_step with
    | .ok r => r
    | .error _ => none
  let otm : Option String := none
  let tr := collect_sections true_range_steps
  let tt := collect_sections trading_time_steps
  .ok ⟨etf, hsi, nq, spx, build_dashboard_html etf hsi nq spx cbbc otm tr tt⟩

/-- C6 counterexample: an exception in the very first step (the ETF
sector heatmap) is NOT caught: it aborts `run_generation_pipeline`
before any dashboard is assembled, so not every report step is guarded. -/
theorem run_generation_pipeline_claim_false :
    run_generation_pipeline (.error "etf heatmap failed") (.ok "hsi.png")
        (.ok "nq.png") (.ok "spx.png") (.ok none) [] [] =
      .error "etf heatmap failed" := rfl

/-- C6 amended: only the CBBC, True-Range and Trading-Time steps are
guarded: whenever the four unguarded chart steps succeed, the pipeline
returns successfully and assembles the dashboard no matter how the
guarded steps fail; an exception in any of the four unguarded steps
(ETF sector heatmap, HSI breadth, NQ breadth, SPX/VIX) aborts the whole
pipeline. -/
theorem run_generation_pipeline_spec (etf hsi nq spx : String)
    (cbbc_step : Except String (Option String))
    (tr tt : List (Except String (Option String))) :
    (run_generation_pipeline (.ok etf) (.ok hsi) (.ok nq) (.ok spx)
        cbbc_step tr tt =
      .ok ⟨etf, hsi, nq, spx,
        build_dashboard_html etf hsi nq spx
          (match cbbc_step with | .ok r => r | .error _ => none) none
          (collect_sections tr) (collect_sections tt)⟩) ∧
    (∀ e : String,
      run_generation_pipeline (.error e) (.ok hsi) (.ok nq) (.ok spx)
        cbbc_step tr tt = .error e) ∧
    (∀ e : String,
      run_generation_pipeline (.ok etf) (.error e) (.ok nq) (.ok spx)
        cbbc_step tr tt = .error e) ∧
    (∀ e : String,
      run_generation_pipeline (.ok etf) (.ok hsi) (.error e) (.ok spx)
        cbbc_step tr tt = .error e) ∧
    (∀ e : String,
      run_generation_pipeline (.ok etf) (.ok hsi) (.ok nq) (.error e)
        cbbc_step tr tt = .error e) := by
  exact ⟨rfl, fun e => rfl, fun e => rfl, fun e => rfl, fun e => rfl⟩

/-- Witness for C6 (amended) at concrete inputs: with all four chart
steps succeeding, a failed CBBC step, one failed and one successful
True-Range ticker and an empty Trading-Time item, the dashboard is
still assembled. -/
theorem run_generation_pipeline_spec_witness :
    run_generation_pipeline (.ok "etf.html") (.ok "hsi.png") (.ok "nq.png")
        (.ok "spx.png") (.error "cbbc failed")
        [.error "tr failed", .ok (some "tr1.png")] [.ok none] =
      .ok ⟨"etf.html", "hsi.png", "nq.png", "spx.png",
        build_dashboard_html "etf.html" "hsi.png" "nq.png" "spx.png"
          none none ["tr1.png"] []⟩ := by
  exact (run_generation_pipeline_spec "etf.html" "hsi.png" "nq.png" "spx.png"
    (.error "cbbc failed") [.error "tr failed", .ok (some "tr1.png")]
    [.ok none]).1

/-- The chronologically ordered list of run candidates the scheduler
loop enumerates: for each day offset 0..7 on an active weekday, the
three configured run times of that day. -/
def run_candidates (current : ℕ) : List ℕ :=
  (List.range 8).flatMap (fun day_delta =>
    if isoweekday_of_day (day_of current + day_delta) ∈ ACTIVE_WEEKDAYS then
      RUN_TIMES.map (fun rt => (day_of current + day_delta) * 1440 + rt)
    else [])

theorem day_of_add (t dd : ℕ) : day_of (t + dd * 1440) = day_of t + dd := by
  unfold day_of
  omega

theorem findSome?_guard_eq_find? (p : ℕ → Bool) (l : List ℕ) :
    l.findSome? (fun c => if p c then some c else none) = l.find? p := by
  induction l with
  | nil => rfl
  | cons a t ih =>
    by_cases h : p a <;>
      simp [List.findSome?_cons, List.find?_cons, h, ih]

theorem findSome?_flatMap (l : List ℕ) (f : ℕ → List ℕ) (g : ℕ → Option ℕ) :
    (l.flatMap f).findSome? g = l.findSome? (fun a => (f a).findSome? g) := by
  induction l with
  | nil => rfl
  | cons a t ih =>
    rw [List.flatMap_cons, List.findSome?_append, List.findSome?_cons]
    cases hfa : (f a).findSome? g with
    | none => simpa [hfa] using ih
    | some b => simp [hfa]

theorem gnr_eq_find (current : ℕ) :
    get_next_run_datetime current =
      (run_candidates current).find? (fun c => decide (current ≤ c)) := by
  unfold get_next_run_datetime run_candidates
  rw [← findSome?_guard_eq_find?, findSome?_flatMap]
  refine congrArg (fun f => List.findSome? f (List.range 8)) (funext fun dd => ?_)
  rw [day_of_add]
  by_cases hact : isoweekday_of_day (day_of current + dd) ∈ ACTIVE_WEEKDAYS
  · rw [if_pos hact, if_pos hact, List.findSome?_map]
    refine congrArg (fun f => List.findSome? f RUN_TIMES) (funext fun rt => ?_)
    by_cases hle : current ≤ (day_of current + dd) * 1440 + rt
    · simp [hle]
    · simp [hle]
  · rw [if_neg hact, if_neg hact]
    rfl

theorem pairwise_lt_flatMap_blocks (l : List ℕ) (f : ℕ → List ℕ)
    (hblock : ∀ a ∈ l, (f a).Pairwise (· < ·))
    (hcross : l.Pairwise (fun a b => ∀ x ∈ f a, ∀ y ∈ f b, x < y)) :
    (l.flatMap f).Pairwise (· < ·) := by
  induction l with
  | nil => exact List.Pairwise.nil
  | cons a t ih =>
    rw [List.flatMap_cons, List.pairwise_append]
    refine ⟨hblock a (List.mem_cons_self _ _),
      ih (fun b hb => hblock b (List.mem_cons_of_mem _ hb))
        (List.pairwise_cons.mp hcross).2, ?_⟩
    intro x hx y hy
    obtain ⟨b, hb, hyb⟩ := List.mem_flatMap.mp hy
    exact (List.pairwise_cons.mp hcross).1 b hb x hx y hyb

theorem mem_block_bounds {D x : ℕ} {dd : ℕ}
    (hx : x ∈ (if isoweekday_of_day (D + dd) ∈ ACTIVE_WEEKDAYS then
      RUN_TIMES.map (fun rt => (D + dd) * 1440 + rt) else [])) :
    (D + dd) * 1440 + 540 ≤ x ∧ x ≤ (D + dd) * 1440 + 1410 := by
  split at hx
  · obtain ⟨rt, hrt, rfl⟩ := List.mem_map.mp hx
    simp only [RUN_TIMES, List.mem_cons, List.not_mem_nil, or_false] at hrt
    rcases hrt with rfl | rfl | rfl <;> omega
  · cases hx

theorem run_candidates_sorted (current : ℕ) :
    (run_candidates current).Pairwise (· < ·) := by
  apply pairwise_lt_flatMap_blocks
  · intro dd hdd
    split
    · simp only [RUN_TIMES, List.map_cons, List.map_nil]
      refine List.Pairwise.cons ?_ (List.Pairwise.cons ?_
        (List.pairwise_singleton _ _))
      · intro y hy
        rcases List.mem_cons.mp hy with rfl | hy2
        · omega
        · rcases List.mem_cons.mp hy2 with rfl | hy3
          · omega
          · cases hy3
      · intro y hy
        rcases List.mem_cons.mp hy with rfl | hy2
        · omega
        · cases hy2
    · exact List.Pairwise.nil
  · refine (List.pairwise_lt_range 8).imp ?_
    intro a b hab x hx y hy
    have hxb := mem_block_bounds hx
    have hyb := mem_block_bounds hy
    have : a + 1 ≤ b := hab
    nlinarith [hxb.1, hxb.2, hyb.1, hyb.2]

theorem mem_run_candidates {current x : ℕ} :
    x ∈ run_candidates current ↔
      ∃ dd, dd < 8 ∧
        isoweekday_of_day (day_of current + dd) ∈ ACTIVE_WEEKDAYS ∧
        ∃ rt ∈ RUN_TIMES, x = (day_of current + dd) * 1440 + rt := by
  unfold run_candidates
  rw [List.mem_flatMap]
  constructor
  · rintro ⟨dd, hdd, hx⟩
    rw [List.mem_range] at hdd
    split at hx
    · obtain ⟨rt, hrt, rfl⟩ := List.mem_map.mp hx
      exact ⟨dd, hdd, by assumption, rt, hrt, rfl⟩
    · cases hx
  · rintro ⟨dd, hdd, hact, rt, hrt, rfl⟩
    exact ⟨dd, List.mem_range.mpr hdd,
      by rw [if_pos hact]; exact List.mem_map.mpr ⟨rt, hrt, rfl⟩⟩

theorem run_time_lt (rt : ℕ) (hrt : rt ∈ RUN_TIMES) : rt < 1440 := by
  simp only [RUN_TIMES, List.mem_cons, List.not_mem_nil, or_false] at hrt
  rcases hrt with rfl | rfl | rfl <;> norm_num

theorem run_candidate_is_run {current x : ℕ}
    (hx : x ∈ run_candidates current) : is_run_dt x := by
  obtain ⟨dd, hdd, hact, rt, hrt, rfl⟩ := mem_run_candidates.mp hx
  have hrt' := run_time_lt rt hrt
  constructor
  · have hd : day_of ((day_of current + dd) * 1440 + rt) = day_of current + dd := by
      unfold day_of
      omega
    rw [hd]
    exact hact
  · have hm : ((day_of current + dd) * 1440 + rt) % 1440 = rt := by omega
    rw [hm]
    exact hrt

theorem run_in_window_mem {current r : ℕ} (hr : is_run_dt r)
    (hge : current ≤ r) (hwin : day_of r ≤ day_of current + 7) :
    r ∈ run_candidates current := by
  have hdle : day_of current ≤ day_of r := Nat.div_le_div_right hge
  refine mem_run_candidates.mpr
    ⟨day_of r - day_of current, by omega, ?_, r % 1440, hr.2, ?_⟩
  · have h1 : day_of current + (day_of r - day_of current) = day_of r := by omega
    rw [h1]
    exact hr.1
  · have h1 : day_of current + (day_of r - day_of current) = day_of r := by omega
    rw [h1]
    have hd : day_of r = r / 1440 := rfl
    omega

theorem find?_sorted_min {l : List ℕ} (hs : l.Pairwise (· < ·)) {t x : ℕ}
    (hfind : l.find? (fun c => decide (t ≤ c)) = some x) :
    x ∈ l ∧ t ≤ x ∧ ∀ y ∈ l, t ≤ y → x ≤ y := by
  induction l with
  | nil => cases hfind
  | cons a rest ih =>
    by_cases hpa : t ≤ a
    · have hxa : x = a := by
        rw [List.find?_cons] at hfind
        simp [hpa] at hfind
        exact hfind.symm
      subst hxa
      refine ⟨List.mem_cons_self _ _, hpa, ?_⟩
      intro y hy hty
      rcases List.mem_cons.mp hy with rfl | hy2
      · exact le_refl _
      · exact le_of_lt ((List.pairwise_cons.mp hs).1 y hy2)
    · rw [List.find?_cons] at hfind
      simp only [hpa, decide_eq_true_eq, ite_false] at hfind
      have hfind2 : rest.find? (fun c => decide (t ≤ c)) = some x := by
        rcases hf : rest.find? (fun c => decide (t ≤ c)) with - | b
        · rw [hf] at hfind
          simp at hfind
        · rw [hf] at hfind
          simpa using hfind
      have hrest := ih (List.pairwise_cons.mp hs).2 hfind2
      refine ⟨List.mem_cons_of_mem _ hrest.1, hrest.2.1, ?_⟩
      intro y hy hty
      rcases List.mem_cons.mp hy with rfl | hy2
      · exact absurd hty hpa
      · exact hrest.2.2 y hy2 hty

theorem active_iff (d : ℕ) :
    isoweekday_of_day d ∈ ACTIVE_WEEKDAYS ↔ d % 7 ≠ 6 := by
  unfold isoweekday_of_day ACTIVE_WEEKDAYS
  simp only [List.mem_cons, List.not_mem_nil, or_false]
  omega

theorem run_candidates_exists (current : ℕ) :
    ∃ c ∈ run_candidates current, current ≤ c := by
  have hD : day_of current = current / 1440 := rfl
  have h540 : (540 : ℕ) ∈ RUN_TIMES := by simp [RUN_TIMES]
  by_cases h1 : (day_of current + 1) % 7 = 6
  · have h2 : (day_of current + 2) % 7 ≠ 6 := by omega
    refine ⟨(day_of current + 2) * 1440 + 540, mem_run_candidates.mpr
      ⟨2, by norm_num, (active_iff _).mpr h2, 540, h540, rfl⟩, by omega⟩
  · refine ⟨(day_of current + 1) * 1440 + 540, mem_run_candidates.mpr
      ⟨1, by norm_num, (active_iff _).mpr h1, 540, h540, rfl⟩, by omega⟩

set_option maxRecDepth 8192 in
/-- C8 counterexample: the schedule is NOT daily: no scheduled run
exists on a Sunday (epoch day 6): every minute of that day fails
`is_run_dt`, and from Sunday 00:00 the next run is Monday 09:00, a gap
of 1980 minutes — beyond a full day. -/
theorem get_next_run_datetime_claim_false :
    ((List.range 1440).all (fun m => decide (¬ is_run_dt (6 * 1440 + m))) = true) ∧
    get_next_run_datetime (6 * 1440) = some (7 * 1440 + 540) ∧
    7 * 1440 + 540 - 6 * 1440 = 1980 := by
  refine ⟨by decide, by decide, rfl⟩

/-- C8 amended: the schedule is Monday through Saturday (Sunday has no
run) at 09:00, 22:30 and 23:30: for every current time,
`get_next_run_datetime` succeeds and returns the earliest configured
run datetime that is not before the current time. -/
theorem get_next_run_datetime_spec (current : ℕ) :
    ∃ r, get_next_run_datetime current = some r ∧ current ≤ r ∧
      is_run_dt r ∧ ∀ r', is_run_dt r' → current ≤ r' → r ≤ r' := by
  have hsorted := run_candidates_sorted current
  obtain ⟨c, hc, hcge⟩ := run_candidates_exists current
  have hfind : ∃ x, (run_candidates current).find?
      (fun c => decide (current ≤ c)) = some x := by
    rcases hf : (run_candidates current).find? (fun c => decide (current ≤ c))
      with - | x
    · exact absurd (decide_eq_true hcge) (List.find?_eq_none.mp hf c hc)
    · exact ⟨x, rfl⟩
  obtain ⟨x, hx⟩ := hfind
  have hmin := find?_sorted_min hsorted hx
  refine ⟨x, by rw [gnr_eq_find]; exact hx, hmin.2.1,
    run_candidate_is_run hmin.1, ?_⟩
  intro r' hr' hger'
  by_cases hwin : day_of r' ≤ day_of current + 7
  · exact hmin.2.2 r' (run_in_window_mem hr' hger' hwin) hger'
  · push_neg at hwin
    obtain ⟨dd, hdd8, -, rt, hrt, rfl⟩ := mem_run_candidates.mp hmin.1
    have hrtb := run_time_lt rt hrt
    have hr'big : (day_of current + 8) * 1440 ≤ r' := by
      have hd : day_of r' = r' / 1440 := rfl
      omega
    omega

/-- Witness for C8 (amended): the scheduler always finds a next run;
concretely it does at time 0. -/
theorem get_next_run_datetime_spec_witness :
    (get_next_run_datetime 0).isSome = true := by
  obtain ⟨r, hr, -⟩ := get_next_run_datetime_spec 0
  rw [hr]
  rfl

end MainAuto

namespace Heatmap

/-!
Model of the z-score computations of
`MarketDashboard/main_auto/ETF_sector_heatmap.py`, per ticker.  Missing
values (NaN) are modelled with `Option`; `math.sqrt(5.0)` is abstracted
as the parameter `sqrt5`.
-/

/-- Model of `compute_zs_live` for one ticker: the latest daily return
(in percent) times 16 divided by the annualised volatility
`VOLATILITY_360D` (in percent), defined only when the volatility is
strictly positive and the return is present; NO mean is subtracted (the
docstring itself notes the 0-mean approximation). -/
def compute_zs_live (pct_today vol : Option ℚ) : Option ℚ :=
  match pct_today, vol with
  | some p, some v => if 0 < v then some (p * 16 / v) else none
  | _, _ => none

/-- The 5-day compounded return used by `compute_zs_5d`: pandas
`(1 + r).prod(axis=1) - 1` skips missing entries (`skipna` default). -/
def cum_return_5d (last5_pct : List (Option ℚ)) : ℚ :=
  (last5_pct.filterMap id).foldl (fun acc r => acc * (1 + r / 100)) 1 - 1

/-- Model of `compute_zs_5d` for one ticker on a frame with `ncols`
return columns: NaN when fewer than 5 columns exist; otherwise
`(R_5d - 5 * mu) / (sigma_1d * sqrt 5)` with `sigma_1d` the annualised
volatility (percent) divided by `16 * 100` and `mu` the daily mean
return `MU_1D` (percent) divided by 100, defined only when the
volatility is present and strictly positive and the mean is present. -/
def compute_zs_5d (ncols : ℕ) (last5_pct : List (Option ℚ))
    (vol mu : Option ℚ) (sqrt5 : ℚ) : Option ℚ :=
  if ncols < 5 then none
  else
    match vol, mu with
    | some v, some m =>
      let sigma_1d := v / (16 * 100)
      if 0 < sigma_1d then
        some ((cum_return_5d last5_pct - 5 * (m / 100)) / (sigma_1d * sqrt5))
      else none
    | _, _ => none

/-- C7 counterexample: `compute_zs_live` does not subtract the return's
mean: with latest return 2 % and volatility 16 % the code yields a
z-score of 2, while the claimed formula `(pct_today - mu) * 16 / vol`
with mean `mu = 1` yields 1. -/
theorem compute_zs_live_claim_false :
    compute_zs_live (some 2) (some 16) = some 2 ∧
      ((2 : ℚ) - 1) * 16 / 16 ≠ 2 := by
  constructor
  · unfold compute_zs_live
    norm_num
  · norm_num

/-- C7 amended: ZS Live is `pct_today * 16 / VOLATILITY_360D` with no
mean subtraction (a deliberate 0-mean approximation), NaN when the
volatility is not strictly positive or an input is missing; ZS 5D is
`(R_5d - 5 * mu) / (sigma_1d * sqrt 5)` with the mean subtracted, NaN
when the volatility or the mean is missing, the volatility is not
strictly positive, or fewer than five return columns exist. -/
theorem compute_zs_spec (p v m sqrt5 : ℚ) (last5 : List (Option ℚ))
    (hv : 0 < v) :
    compute_zs_live (some p) (some v) = some (p * 16 / v) ∧
    compute_zs_live none (some v) = none ∧
    compute_zs_live (some p) none = none ∧
    (∀ v' : ℚ, v' ≤ 0 → compute_zs_live (some p) (some v') = none) ∧
    (∀ v' : ℚ, v' ≤ 0 →
      compute_zs_5d 5 last5 (some v') (some m) sqrt5 = none) ∧
    compute_zs_5d 5 last5 (some v) (some m) sqrt5 =
      some ((cum_return_5d last5 - 5 * (m / 100)) / ((v / (16 * 100)) * sqrt5)) ∧
    compute_zs_5d 5 last5 none (some m) sqrt5 = none ∧
    compute_zs_5d 5 last5 (some v) none sqrt5 = none ∧
    (∀ n, n < 5 → ∀ vol mu : Option ℚ,
      compute_zs_5d n last5 vol mu sqrt5 = none) := by
  have hsigma : 0 < v / (16 * 100) := by positivity
  refine ⟨?_, rfl, rfl, ?_, ?_, ?_, rfl, rfl, ?_⟩
  · unfold compute_zs_live
    dsimp only
    rw [if_pos hv]
  · intro v' hv'
    unfold compute_zs_live
    dsimp only
    rw [if_neg (not_lt.mpr hv')]
  · intro v' hv'
    unfold compute_zs_5d
    rw [if_neg (by norm_num)]
    dsimp only
    rw [if_neg (not_lt.mpr
      (div_nonpos_of_nonpos_of_nonneg hv' (by norm_num)))]
  · unfold compute_zs_5d
    rw [if_neg (by norm_num)]
    dsimp only
    rw [if_pos hsigma]
  · intro n hn vol mu
    unfold compute_zs_5d
    rw [if_pos hn]

/-- Witness for C7 (amended) at a concrete input: volatility 16 %,
latest return 1 % gives ZS Live 1. -/
theorem compute_zs_spec_witness :
    compute_zs_live (some 1) (some 16) = some (1 * 16 / 16) :=
  (compute_zs_spec 1 16 0 1 [] (by norm_num)).1

end Heatmap

namespace AppLogin

/-!
Model of the login gate `login_system` of `app.py`.  Streamlit session
state, the secrets store and the submitted form are inputs; the output
is the new session state, the value the call returns (absent when the
call ends in `st.rerun()`, which raises), and the message displayed.
-/

/-- The configured secrets: the e-mail whitelist
`allowed_users.emails` and the universal `access_password`. -/
structure Secrets where
  emails : List String
  password : String

/-- The slice of Streamlit session state that `login_system` touches. -/
structure SessionState where
  authentication_status : Option Bool
  user_email : Option String
deriving DecidableEq, Repr

/-- The message `login_system` displays, if any. -/
inductive LoginMessage where
  | success_redirect
  | access_denied
  | secrets_missing
deriving DecidableEq, Repr

/-- Model of `login_system()`: returns `(new session state, returned
value, displayed message)`.  An already-authenticated session returns
`True` at once; with no form submission the call just returns `False`;
a submission with missing secrets shows the error and returns `False`
leaving the state untouched; a whitelisted e-mail with the correct
password sets `authentication_status := True` and reruns the app (no
normal return); anything else sets `authentication_status := False`
and shows the denial message. -/
def login_system (st : SessionState) (secrets : Option Secrets)
    (submission : Option (String × String)) :
    SessionState × Option Bool × Option LoginMessage :=
  if st.authentication_status = some true then (st, some true, none)
  else
    match submission with
    | none => (st, some false, none)
    | some (email_input, password_input) =>
      match secrets with
      | none => (st, some false, some .secrets_missing)
      | some s =>
        if email_input ∈ s.emails ∧ password_input = s.password then
          ({ st with
              authentication_status := some true,
              user_email := some email_input },
            none, some .success_redirect)
        else
          ({ st with authentication_status := some false },
            some false, some .access_denied)

/-- C9: on a submission with the secrets configured, access is granted
(`authentication_status` set to `True`) if and only if the e-mail is
whitelisted and the password matches; any other submission sets
`authentication_status` to `False` and shows the denial message; with
the secrets missing, the call denies access without granting: the state
is unchanged and `False` is returned with the error message. -/
theorem login_system_spec (st : SessionState) (s : Secrets)
    (email pw : String) (hauth : st.authentication_status ≠ some true) :
    ((login_system st (some s) (some (email, pw))).1.authentication_status =
        some true ↔ (email ∈ s.emails ∧ pw = s.password)) ∧
    (¬ (email ∈ s.emails ∧ pw = s.password) →
      (login_system st (some s) (some (email, pw))).1.authentication_status =
          some false ∧
        (login_system st (some s) (some (email, pw))).2.2 =
          some .access_denied) ∧
    ((email ∈ s.emails ∧ pw = s.password) →
      (login_system st (some s) (some (email, pw))).1.user_email = some email ∧
        (login_system st (some s) (some (email, pw))).2.2 =
          some .success_redirect) ∧
    ((login_system st none (some (email, pw))).1 = st ∧
      (login_system st none (some (email, pw))).2.1 = some false ∧
      (login_system st none (some (email, pw))).2.2 = some .secrets_missing) := by
  unfold login_system
  simp only [if_neg hauth]
  by_cases hok : email ∈ s.emails ∧ pw = s.password
  · rw [if_pos hok]
    refine ⟨⟨fun _ => hok, fun _ => rfl⟩, fun hn => absurd hok hn,
      fun _ => ⟨rfl, rfl⟩, by trivial, by trivial, by trivial⟩
  · rw [if_neg hok]
    refine ⟨⟨fun he => ?_, fun h => absurd h hok⟩, fun _ => ⟨rfl, rfl⟩,
      fun h => absurd h hok, by trivial, by trivial, by trivial⟩
    simp at he

/-- Witness for C9 at a concrete input: a fresh session, a whitelist
holding one address and the matching password grant access. -/
theorem login_system_spec_witness :
    (login_system ⟨none, none⟩ (some ⟨["trader at paristrader"], "open sesame"⟩)
        (some ("trader at paristrader", "open sesame"))).1.authentication_status =
      some true := by
  refine ((login_system_spec ⟨none, none⟩
    ⟨["trader at paristrader"], "open sesame"⟩
    "trader at paristrader" "open sesame" (by simp)).1).mpr ?_
  exact ⟨by simp, rfl⟩

end AppLogin
